import Mathlib

/-!
Verification of the incremental-fetch watermark algorithm and asset-download
logic of the `tinuous` repository, as a shallow embedding in Lean.

Timestamps (`datetime` objects in the source) are modelled as natural
numbers; only their total order matters to the algorithms under study.

The watermark tracker (`CISystem` in `src/tinuous/base.py`) keeps a Python
`heapq` min-heap of `(timestamp, processed)` tuples.  `heapq.heappush`
inserts a value and `heapq.heappop` removes and returns the smallest
remaining value, so the sequence of values produced by repeatedly popping
the heap is exactly the multiset of pushed values arranged in ascending
order of Python's tuple comparison: lexicographic on `(timestamp,
processed)` with `False < True`.  The embedding keeps the pushed values as
a plain list and materialises that ascending pop order with a sort.
-/

/-- Timestamps, modelled as naturals ordered like `datetime` values. -/
abbrev Timestamp := Nat

/-- Python's comparison on the `(ts, processed)` tuples stored in the heap:
lexicographic on the timestamp, with `False < True` breaking ties. -/
def entryLE (a b : Timestamp × Bool) : Prop :=
  a.1 < b.1 ∨ (a.1 = b.1 ∧ (a.2 = true → b.2 = true))

instance entryLE.instDecidable (a b : Timestamp × Bool) : Decidable (entryLE a b) :=
  inferInstanceAs (Decidable (a.1 < b.1 ∨ (a.1 = b.1 ∧ (a.2 = true → b.2 = true))))

instance entryLE.instIsTotal : IsTotal (Timestamp × Bool) entryLE := by
  constructor
  intro a b
  rcases Nat.lt_trichotomy a.1 b.1 with h | h | h
  · exact Or.inl (Or.inl h)
  · cases hb : b.2
    · cases ha : a.2
      · exact Or.inl (Or.inr ⟨h, by simp [ha, hb]⟩)
      · exact Or.inr (Or.inr ⟨h.symm, by simp [ha, hb]⟩)
    · exact Or.inl (Or.inr ⟨h, by simp [hb]⟩)
  · exact Or.inr (Or.inl h)

instance entryLE.instIsTrans : IsTrans (Timestamp × Bool) entryLE := by
  constructor
  intro a b c hab hbc
  rcases hab with h1 | ⟨h1, h2⟩ <;> rcases hbc with h3 | ⟨h3, h4⟩
  · exact Or.inl (Nat.lt_trans h1 h3)
  · exact Or.inl (h3 ▸ h1)
  · exact Or.inl (Nat.lt_of_le_of_lt (Nat.le_of_eq h1) h3)
  · exact Or.inr ⟨h1.trans h3, fun h => h4 (h2 h)⟩

instance entryLE.instIsAntisymm : IsAntisymm (Timestamp × Bool) entryLE := by
  constructor
  intro a b hab hba
  rcases hab with h1 | ⟨h1, h2⟩ <;> rcases hba with h3 | ⟨h3, h4⟩
  · exact absurd h3 (Nat.lt_asymm h1)
  · exact absurd h1 (h3 ▸ Nat.lt_irrefl _)
  · exact absurd h3 (h1 ▸ Nat.lt_irrefl _)
  · have hb : a.2 = b.2 := by
      cases ha : a.2 <;> cases hbb : b.2 <;> simp_all
    exact Prod.ext h1 hb

/-- The state of one watermark tracker: `CISystem` in `src/tinuous/base.py`
(fields other than `since` and `fetched` play no role in the watermark
algorithm). -/
structure CISystem where
  since : Timestamp
  fetched : List (Timestamp × Bool)
deriving DecidableEq

/-- `CISystem.register_build` (base.py 236-237): `heapq.heappush(self.fetched,
(ts, processed))`.  As a multiset the heap simply gains one element. -/
def register_build (s : CISystem) (ts : Timestamp) (processed : Bool) : CISystem :=
  { s with fetched := s.fetched ++ [(ts, processed)] }

/-- A sequence of `register_build` calls, in the given order. -/
def registerAll : CISystem → List (Timestamp × Bool) → CISystem
  | s, [] => s
  | s, (ts, processed) :: rest => registerAll (register_build s ts processed) rest

/-- The ascending order in which repeated `heapq.heappop` calls hand out the
heap's contents (see the header comment). -/
def popOrder (l : List (Timestamp × Bool)) : List (Timestamp × Bool) :=
  List.insertionSort entryLE l

/-- The `while self.fetched` loop of `CISystem.new_since` (base.py 239-246),
run over the ascending pop order: advance `prev_ts` over processed entries
and stop at the first unprocessed one. -/
def drainFloor (prev : Timestamp) : List (Timestamp × Bool) → Timestamp
  | [] => prev
  | (ts, processed) :: rest => if processed then drainFloor ts rest else prev

/-- `CISystem.new_since` (base.py 239-246). -/
def new_since (s : CISystem) : Timestamp :=
  drainFloor s.since (popOrder s.fetched)

/-- The multiset of entries still sitting in `self.fetched` when `new_since`
returns: popping stops (leaving the rest in the heap) at the first
unprocessed entry of the ascending pop order. -/
def drainRest : List (Timestamp × Bool) → List (Timestamp × Bool)
  | [] => []
  | (_, processed) :: rest => if processed then drainRest rest else rest

/-- Contents of `self.fetched` after `new_since` has returned. -/
def fetchedAfter (s : CISystem) : List (Timestamp × Bool) :=
  drainRest (popOrder s.fetched)

theorem registerAll_fetched (s : CISystem) (regs : List (Timestamp × Bool)) :
    (registerAll s regs).fetched = s.fetched ++ regs ∧
      (registerAll s regs).since = s.since := by
  induction regs generalizing s with
  | nil => simp [registerAll]
  | cons e rest ih =>
    obtain ⟨ts, processed⟩ := e
    rw [registerAll]
    rcases ih (register_build s ts processed) with ⟨h1, h2⟩
    refine ⟨?_, h2⟩
    rw [h1]
    simp [register_build]

theorem new_since_registerAll (since : Timestamp) (regs : List (Timestamp × Bool)) :
    new_since (registerAll ⟨since, []⟩ regs) = drainFloor since (popOrder regs) := by
  rcases registerAll_fetched ⟨since, []⟩ regs with ⟨h1, h2⟩
  rw [new_since, h1, h2]
  rfl

theorem entryLE_ts_le {a b : Timestamp × Bool} (h : entryLE a b) : a.1 ≤ b.1 := by
  rcases h with h | ⟨h, -⟩
  · exact Nat.le_of_lt h
  · exact Nat.le_of_eq h

theorem entryLE_true_false {u t : Timestamp} (h : entryLE (u, true) (t, false)) :
    u < t := by
  rcases h with h | ⟨-, h2⟩
  · exact h
  · exact absurd (h2 rfl) (by simp)

theorem drainFloor_le_of_mem_false {l : List (Timestamp × Bool)}
    (hs : l.Sorted entryLE) {t prev : Timestamp}
    (hmem : (t, false) ∈ l) (hprev : prev ≤ t) : drainFloor prev l ≤ t := by
  induction l generalizing prev with
  | nil => exact absurd hmem (List.not_mem_nil _)
  | cons hd tl ih =>
    obtain ⟨u, b⟩ := hd
    cases b with
    | false => simpa [drainFloor] using hprev
    | true =>
      have hmem' : (t, false) ∈ tl := by
        rcases List.mem_cons.mp hmem with h | h
        · simp at h
        · exact h
      have hu : u < t := entryLE_true_false (List.rel_of_sorted_cons hs _ hmem')
      simpa [drainFloor] using ih (List.sorted_cons.mp hs).2 hmem' (Nat.le_of_lt hu)

theorem le_drainFloor_of_forall_le {l : List (Timestamp × Bool)}
    (hs : l.Sorted entryLE) {prev : Timestamp}
    (h : ∀ e ∈ l, prev ≤ e.1) : prev ≤ drainFloor prev l := by
  induction l generalizing prev with
  | nil => exact Nat.le_refl _
  | cons hd tl ih =>
    obtain ⟨u, b⟩ := hd
    cases b with
    | false => simp [drainFloor]
    | true =>
      have h0 : prev ≤ u := h (u, true) (List.mem_cons_self _ _)
      have htl : ∀ e ∈ tl, u ≤ e.1 :=
        fun e he => entryLE_ts_le (List.rel_of_sorted_cons hs e he)
      simpa [drainFloor] using
        Nat.le_trans h0 (ih (List.sorted_cons.mp hs).2 htl)

theorem mem_true_le_drainFloor {l : List (Timestamp × Bool)}
    (hs : l.Sorted entryLE) {t prev : Timestamp}
    (hmem : (t, true) ∈ l) (hlt : ∀ e ∈ l, e.2 = false → t < e.1) :
    t ≤ drainFloor prev l := by
  induction l generalizing prev with
  | nil => exact absurd hmem (List.not_mem_nil _)
  | cons hd tl ih =>
    obtain ⟨u, b⟩ := hd
    cases b with
    | false =>
      have h1 : t < u := hlt (u, false) (List.mem_cons_self _ _) rfl
      have hmem' : (t, true) ∈ tl := by
        rcases List.mem_cons.mp hmem with h | h
        · simp at h
        · exact h
      have h2 : u ≤ t := entryLE_ts_le (List.rel_of_sorted_cons hs _ hmem')
      exact absurd h1 (Nat.not_lt.mpr h2)
    | true =>
      rcases List.mem_cons.mp hmem with h | h
      · have ht : t = u := by simpa using congrArg Prod.fst h
        subst ht
        have htl : ∀ e ∈ tl, t ≤ e.1 :=
          fun e he => entryLE_ts_le (List.rel_of_sorted_cons hs e he)
        simpa [drainFloor] using
          le_drainFloor_of_forall_le (List.sorted_cons.mp hs).2 htl
      · have hlt' : ∀ e ∈ tl, e.2 = false → t < e.1 :=
          fun e he => hlt e (List.mem_cons_of_mem _ he)
        simpa [drainFloor] using ih (List.sorted_cons.mp hs).2 h hlt'

theorem popOrder_sorted (l : List (Timestamp × Bool)) :
    (popOrder l).Sorted entryLE :=
  List.sorted_insertionSort entryLE l

theorem popOrder_perm (l : List (Timestamp × Bool)) : List.Perm (popOrder l) l :=
  List.perm_insertionSort entryLE l

/-- C2 (counterexample): the claim quantifies over every sequence of
`register_build` calls, but when a timestamp at or below the initial
`since` is registered unprocessed, `new_since` returns the initial `since`,
which exceeds the earliest unprocessed timestamp.  Here `since = 100` and
the single registration is `(7, false)`: the result is `100 > 7`. -/
theorem monotonic_floor_counterexample :
    (7, false) ∈ (registerAll ⟨100, []⟩ [(7, false)]).fetched ∧
    new_since (registerAll ⟨100, []⟩ [(7, false)]) = 100 ∧
    ¬ new_since (registerAll ⟨100, []⟩ [(7, false)]) ≤ 7 := by
  refine ⟨?_, ?_, ?_⟩ <;> decide

/-- C2 (amended): provided every registered timestamp is strictly greater
than the tracker's initial `since` — which the feed loops guarantee, since
they stop at the first event with `ts <= since` before registering — and at
least one entry is unprocessed, `new_since` returns a value that is at most
every unprocessed timestamp, at least `since`, and at least every processed
timestamp lying strictly below all unprocessed timestamps. -/
theorem monotonic_floor_bounds (since : Timestamp) (regs : List (Timestamp × Bool))
    (hgt : ∀ e ∈ regs, since < e.1)
    (_hex : ∃ t, (t, false) ∈ regs) :
    (∀ t, (t, false) ∈ regs → new_since (registerAll ⟨since, []⟩ regs) ≤ t) ∧
    since ≤ new_since (registerAll ⟨since, []⟩ regs) ∧
    (∀ t, (t, true) ∈ regs → (∀ u, (u, false) ∈ regs → t < u) →
      t ≤ new_since (registerAll ⟨since, []⟩ regs)) := by
  rw [new_since_registerAll]
  have hs := popOrder_sorted regs
  have hp := popOrder_perm regs
  refine ⟨?_, ?_, ?_⟩
  · intro t hmem
    exact drainFloor_le_of_mem_false hs (hp.mem_iff.mpr hmem)
      (Nat.le_of_lt (hgt _ hmem))
  · exact le_drainFloor_of_forall_le hs
      (fun e he => Nat.le_of_lt (hgt e (hp.subset he)))
  · intro t hmem hlt
    refine mem_true_le_drainFloor hs (hp.mem_iff.mpr hmem) ?_
    intro e he hef
    refine hlt e.1 ?_
    have hm : e ∈ regs := hp.subset he
    rw [← Prod.mk.eta (p := e), hef] at hm
    exact hm

theorem monotonic_floor_bounds_witness :
    (∀ t, (t, false) ∈ [((10 : Timestamp), true), (20, false), (30, true)] →
      new_since (registerAll ⟨0, []⟩ [(10, true), (20, false), (30, true)]) ≤ t) ∧
    0 ≤ new_since (registerAll ⟨0, []⟩ [(10, true), (20, false), (30, true)]) ∧
    (∀ t, (t, true) ∈ [((10 : Timestamp), true), (20, false), (30, true)] →
      (∀ u, (u, false) ∈ [((10 : Timestamp), true), (20, false), (30, true)] → t < u) →
      t ≤ new_since (registerAll ⟨0, []⟩ [(10, true), (20, false), (30, true)])) :=
  monotonic_floor_bounds 0 [(10, true), (20, false), (30, true)]
    (by decide) ⟨20, by decide⟩

/-- C3: `new_since` does not depend on the insertion order of the
registrations: any two permutations of the same multiset of
`(timestamp, processed)` pairs produce the same floor (ties on the
timestamp are ordered with `(t, false)` before `(t, true)` by the heap's
tuple comparison, identically for both insertion orders). -/
theorem new_since_order_independent (since : Timestamp)
    (regs₁ regs₂ : List (Timestamp × Bool)) (h : List.Perm regs₁ regs₂) :
    new_since (registerAll ⟨since, []⟩ regs₁) =
      new_since (registerAll ⟨since, []⟩ regs₂) := by
  rw [new_since_registerAll, new_since_registerAll]
  have key : popOrder regs₁ = popOrder regs₂ :=
    List.eq_of_perm_of_sorted
      ((popOrder_perm regs₁).trans (h.trans (popOrder_perm regs₂).symm))
      (popOrder_sorted regs₁) (popOrder_sorted regs₂)
  rw [key]

theorem new_since_order_independent_witness :
    new_since (registerAll ⟨0, []⟩ [(10, true), (20, false)]) =
      new_since (registerAll ⟨0, []⟩ [(20, false), (10, true)]) :=
  new_since_order_independent 0 [(10, true), (20, false)] [(20, false), (10, true)]
    (List.Perm.swap (20, false) (10, true) [])

/-- C6 (counterexample): `new_since` does not always exhaust `fetched`.
Popping stops at the first unprocessed entry of the ascending pop order,
so with registrations `[(10, false), (20, true)]` the entry `(20, true)` is
still in `fetched` when `new_since` returns. -/
theorem new_since_exhausts_counterexample :
    fetchedAfter (registerAll ⟨0, []⟩ [(10, false), (20, true)]) = [(20, true)] ∧
    fetchedAfter (registerAll ⟨0, []⟩ [(10, false), (20, true)]) ≠ [] := by
  refine ⟨?_, ?_⟩ <;> decide

theorem drainRest_eq_nil {l : List (Timestamp × Bool)}
    (h : ∀ e ∈ l, e.2 = true) : drainRest l = [] := by
  induction l with
  | nil => rfl
  | cons hd tl ih =>
    obtain ⟨u, b⟩ := hd
    have hb : b = true := h (u, b) (List.mem_cons_self _ _)
    subst hb
    simpa [drainRest] using ih (fun e he => h e (List.mem_cons_of_mem _ he))

theorem drainRest_eq_dropWhile_tail (l : List (Timestamp × Bool)) :
    drainRest l = (l.dropWhile (fun e => e.2)).tail := by
  induction l with
  | nil => rfl
  | cons hd tl ih =>
    obtain ⟨u, b⟩ := hd
    cases b with
    | false => simp [drainRest, List.dropWhile_cons]
    | true => simp [drainRest, List.dropWhile_cons, ih]

/-- C6 (amended): the floor computation pops entries in ascending pop order
up to and including the first unprocessed entry, so when `new_since`
returns, `fetched` holds exactly the entries strictly after the first
unprocessed entry of the ascending pop order.  In particular the
registration multiset is exhausted whenever every registered entry was
processed, and also whenever nothing sorts after the first unprocessed
entry — for example the single registration `[(5, false)]` of the spec's
Scenario D is fully drained as well. -/
theorem new_since_drain_remainder (since : Timestamp)
    (regs : List (Timestamp × Bool)) :
    fetchedAfter (registerAll ⟨since, []⟩ regs) =
      ((popOrder regs).dropWhile (fun e => e.2)).tail ∧
    ((∀ e ∈ regs, e.2 = true) → fetchedAfter (registerAll ⟨since, []⟩ regs) = []) ∧
    fetchedAfter (registerAll ⟨0, []⟩ [(5, false)]) = [] := by
  rcases registerAll_fetched ⟨since, []⟩ regs with ⟨h1, -⟩
  refine ⟨?_, ?_, by decide⟩
  · rw [fetchedAfter, h1, List.nil_append]
    exact drainRest_eq_dropWhile_tail (popOrder regs)
  · intro h
    rw [fetchedAfter, h1, List.nil_append]
    exact drainRest_eq_nil (fun e he => h e ((popOrder_perm regs).subset he))

theorem new_since_drain_remainder_witness :
    fetchedAfter (registerAll ⟨0, []⟩ [(30, true), (10, true)]) =
      ((popOrder [(30, true), (10, true)]).dropWhile (fun e => e.2)).tail ∧
    fetchedAfter (registerAll ⟨0, []⟩ [(30, true), (10, true)]) = [] ∧
    fetchedAfter (registerAll ⟨0, []⟩ [(5, false)]) = [] :=
  ⟨(new_since_drain_remainder 0 [(30, true), (10, true)]).1,
   (new_since_drain_remainder 0 [(30, true), (10, true)]).2.1 (by decide),
   (new_since_drain_remainder 0 [(30, true), (10, true)]).2.2⟩

/-- C1: the spec's concrete floor-computation scenarios A, B and D hold on
the code: `[(10, true), (20, false), (30, true)]` with `since = 0` gives
`10`, `[(10, true), (20, true), (30, true)]` gives `30`, and `[(5, false)]`
gives `0`. -/
theorem new_since_scenarios :
    new_since (registerAll ⟨0, []⟩ [(10, true), (20, false), (30, true)]) = 10 ∧
    new_since (registerAll ⟨0, []⟩ [(10, true), (20, true), (30, true)]) = 30 ∧
    new_since (registerAll ⟨0, []⟩ [(5, false)]) = 0 := by
  refine ⟨?_, ?_, ?_⟩ <;> decide

/-- C7: `new_since` on a tracker with zero registrations returns exactly the
original `since`; in particular with `since = 5` it returns `5`. -/
theorem new_since_empty_noop :
    (∀ s : Timestamp, new_since ⟨s, []⟩ = s) ∧ new_since ⟨5, []⟩ = 5 :=
  ⟨fun _ => rfl, rfl⟩

/-!
Feed iteration boundary (`GitHubActions.get_runs`, github.py 72-77, and the
Travis build loop, travis.py 91-100): the feed arrives newest-first and the
loop breaks at the first event whose timestamp is at or below `since`.
-/

/-- `GitHubActions.get_runs` (github.py 72-77) restricted to the data the
loop inspects: the `created_at` timestamps of the paginated feed.  The loop
breaks at the first run with `created_at <= since` and yields the rest. -/
def get_runs (since : Timestamp) : List Timestamp → List Timestamp
  | [] => []
  | t :: rest => if t ≤ since then [] else t :: get_runs since rest

/-- The Travis `get_build_assets` feed loop (travis.py 91-100) restricted to
the timestamps it inspects: a build with `started_at is None` is skipped
without consulting `since`, and the loop breaks at the first started build
with `ts <= since`.  Returns the timestamps of the builds that are
considered further (registered and possibly downloaded). -/
def travis_considered (since : Timestamp) : List (Option Timestamp) → List Timestamp
  | [] => []
  | none :: rest => travis_considered since rest
  | some t :: rest => if t ≤ since then [] else t :: travis_considered since rest

/-- C4: feed iteration uses a strict inequality against the previous floor.
Every run yielded by `get_runs` has `since < created_at` (so a run with
`created_at = since` is never processed or registered), the loop keeps
exactly the maximal prefix of events with `since < created_at` (stopping
for good at the first event at or below `since`), the same boundary holds
for the Travis loop, and with feed `[50, 40, 30]` and `since = 35` only the
events at 50 and 40 are considered. -/
theorem strict_floor_boundary (since : Timestamp) (feed : List Timestamp)
    (tfeed : List (Option Timestamp)) :
    (∀ t ∈ get_runs since feed, since < t) ∧
    since ∉ get_runs since feed ∧
    get_runs since feed = feed.takeWhile (fun t => decide (since < t)) ∧
    (∀ t ∈ travis_considered since tfeed, since < t) ∧
    get_runs 35 [50, 40, 30] = [50, 40] := by
  refine ⟨?_, ?_, ?_, ?_, by decide⟩
  · intro t ht
    induction feed with
    | nil => exact absurd ht (List.not_mem_nil _)
    | cons u rest ih =>
      by_cases hu : u ≤ since
      · rw [get_runs, if_pos hu] at ht
        exact absurd ht (List.not_mem_nil _)
      · rw [get_runs, if_neg hu] at ht
        rcases List.mem_cons.mp ht with h | h
        · exact h ▸ Nat.lt_of_not_le hu
        · exact ih h
  · intro hmem
    induction feed with
    | nil => exact absurd hmem (List.not_mem_nil _)
    | cons u rest ih =>
      by_cases hu : u ≤ since
      · rw [get_runs, if_pos hu] at hmem
        exact absurd hmem (List.not_mem_nil _)
      · rw [get_runs, if_neg hu] at hmem
        rcases List.mem_cons.mp hmem with h | h
        · exact hu (Nat.le_of_eq h.symm)
        · exact ih h
  · induction feed with
    | nil => rfl
    | cons u rest ih =>
      by_cases hu : u ≤ since
      · rw [get_runs, if_pos hu, List.takeWhile_cons,
          decide_eq_false (Nat.not_lt.mpr hu)]
        simp
      · rw [get_runs, if_neg hu, List.takeWhile_cons,
          decide_eq_true (Nat.lt_of_not_le hu), ih]
        simp
  · intro t ht
    induction tfeed with
    | nil => exact absurd ht (List.not_mem_nil _)
    | cons o rest ih =>
      match o with
      | none =>
        rw [travis_considered] at ht
        exact ih ht
      | some u =>
        by_cases hu : u ≤ since
        · rw [travis_considered, if_pos hu] at ht
          exact absurd ht (List.not_mem_nil _)
        · rw [travis_considered, if_neg hu] at ht
          rcases List.mem_cons.mp ht with h | h
          · exact h ▸ Nat.lt_of_not_le hu
          · exact ih h

theorem strict_floor_boundary_witness :
    get_runs 35 [50, 40, 30] = [50, 40] ∧ (35 : Timestamp) ∉ get_runs 35 [50, 40, 30] :=
  ⟨(strict_floor_boundary 35 [50, 40, 30] []).2.2.2.2,
   (strict_floor_boundary 35 [50, 40, 30] []).2.1⟩

/-!
Event classification (`EventType.from_gh_event` and
`EventType.from_travis_event` in base.py 89-107, and their use in
github.py 97-137 and travis.py 86-90).
-/

/-- Common trigger kinds: `EventType` in base.py 83-87. -/
inductive EventType
  | cron
  | push
  | pull_request
  | manual
deriving DecidableEq

/-- `EventType.from_gh_event` (base.py 89-98): dictionary `.get`, so an
unrecognized string yields `None`. -/
def from_gh_event (gh_event : String) : Option EventType :=
  if gh_event = "schedule" then some .cron
  else if gh_event = "push" then some .push
  else if gh_event = "pull_request" then some .pull_request
  else if gh_event = "pull_request_target" then some .pull_request
  else if gh_event = "workflow_dispatch" then some .manual
  else if gh_event = "repository_dispatch" then some .manual
  else none

/-- `EventType.from_travis_event` (base.py 100-107). -/
def from_travis_event (travis_event : String) : Option EventType :=
  if travis_event = "cron" then some .cron
  else if travis_event = "push" then some .push
  else if travis_event = "pull_request" then some .pull_request
  else if travis_event = "api" then some .manual
  else none

/-- Travis classification step (travis.py 86-90): an unknown event type
raises `ValueError`. -/
def travis_event_type (build_event : String) : Except String EventType :=
  match from_travis_event build_event with
  | none => .error ("Build has unknown event type " ++ build_event)
  | some t => .ok t

/-- What `GitHubActions.get_build_assets` does with a completed, in-range
run (github.py 108-137). -/
inductive RunAction
  | resolveAssets
  | skipEvent
deriving DecidableEq

/-- The classification-and-dispatch step of `GitHubActions.get_build_assets`
for a completed run inside the time window (github.py 109 and 117-137):
`run_event = EventType.from_gh_event(run.event)` is never checked for
`None`; the branch `if run_event in event_types` is `False` for `None`, so
the run falls into the logged skip branch.  No exception is raised anywhere
on this path, hence the result is always `.ok`. -/
def gha_completed_run_action (run_event_str : String)
    (event_types : List EventType) : Except String RunAction :=
  match from_gh_event run_event_str with
  | some t => if t ∈ event_types then .ok .resolveAssets else .ok .skipEvent
  | none => .ok .skipEvent

/-- C5 (counterexample): for GitHub Actions an unrecognized provider-native
event-type string does not raise: the run with event `merge_group` is
silently skipped (after having been registered as processed), even with
every trigger kind allow-listed. -/
theorem unknown_event_type_counterexample :
    from_gh_event "merge_group" = none ∧
    gha_completed_run_action "merge_group"
      [.cron, .push, .pull_request, .manual] = .ok .skipEvent :=
  ⟨rfl, rfl⟩

/-- C5 (amended): the providers disagree.  Travis raises an explicit
`ValueError` when a build's event-type string is not in its lookup table,
while GitHub Actions maps the unknown string to `None`, which fails the
allow-list membership test, so the run is silently skipped (no error, no
assets) rather than failing. -/
theorem unknown_event_type_handling (s : String) (event_types : List EventType) :
    (from_travis_event s = none →
      travis_event_type s = .error ("Build has unknown event type " ++ s)) ∧
    (from_gh_event s = none →
      gha_completed_run_action s event_types = .ok .skipEvent) := by
  constructor
  · intro h
    rw [travis_event_type, h]
  · intro h
    rw [gha_completed_run_action, h]

theorem unknown_event_type_handling_witness :
    travis_event_type "merge_group" =
      .error ("Build has unknown event type " ++ "merge_group") ∧
    gha_completed_run_action "merge_group" [.push] = .ok .skipEvent :=
  ⟨(unknown_event_type_handling "merge_group" [.push]).1 rfl,
   (unknown_event_type_handling "merge_group" [.push]).2 rfl⟩

/-!
Persisted watermark lookup: `StateFile.get_since` (state.py 57-62).
-/

/-- `StateFile.get_since` (state.py 57-62): the per-provider stored
timestamp (`None` when absent) clamped up to the configured
`default_since`. -/
def get_since (state_entry : Option Timestamp) (default_since : Timestamp) :
    Timestamp :=
  match state_entry with
  | some t => max t default_since
  | none => default_since

/-- C10: `get_since` never returns a value below the configured default:
a stored timestamp is clamped up to `default_since`, and an absent entry
yields `default_since` itself. -/
theorem get_since_clamps (o : Option Timestamp) (d : Timestamp) :
    d ≤ get_since o d ∧
    (∀ t, o = some t → get_since o d = max t d) ∧
    (o = none → get_since o d = d) := by
  refine ⟨?_, fun t ht => by rw [ht, get_since], fun h => by rw [h, get_since]⟩
  match o with
  | some t => exact Nat.le_max_right t d
  | none => exact Nat.le_refl d

theorem get_since_clamps_witness :
    (3 : Timestamp) ≤ get_since (some 2) 3 ∧ get_since (some 2) 3 = max 2 3 :=
  ⟨(get_since_clamps (some 2) 3).1, (get_since_clamps (some 2) 3).2.1 2 rfl⟩

/-!
Downloader cleanup discipline (`APIClient.download`, base.py 162-189, and
`APIClient.download_zipfile`, base.py 191-215).  The byte transfers and
exceptions are modelled by an oracle: a list of per-loop-iteration outcomes
(the loop consumes one outcome per iteration).  `none` as the overall
result means the retry loop has not yet terminated within the supplied
outcomes.
-/

/-- On-disk state of the single target file written by `APIClient.download`. -/
inductive FileState
  | absent
  | halfWritten
  | complete
deriving DecidableEq

/-- Outcome of one iteration of the retry loop in `APIClient.download`:
the transfer completes, is interrupted by a connection error
(`ChunkedEncodingError` / `ConnectionError`), or some other exception is
raised mid-write. -/
inductive DlAttempt
  | ok
  | connErr
  | fatalErr
deriving DecidableEq

/-- `APIClient.MAX_RETRIES` (base.py 111). -/
def MAX_RETRIES : Nat := 12

/-- `APIClient.ZIPFILE_RETRIES` (base.py 112). -/
def ZIPFILE_RETRIES : Nat := 5

/-- `APIClient.download` (base.py 162-189).  Each iteration opens the target
with mode `wb` (truncating any half-written bytes from a previous attempt)
and streams chunks into it.  A connection error with retries left loops
again; once retries are exhausted, or on any other exception, the
`except BaseException` handler runs `filepath.unlink(missing_ok=True)`
before re-raising, so the propagated error leaves the file absent. -/
def download (attempts : List DlAttempt) (i : Nat) :
    Option (Except Unit Unit × FileState) :=
  match attempts with
  | [] => none
  | a :: rest =>
    match a with
    | .ok => some (.ok (), .complete)
    | .connErr =>
      if i < MAX_RETRIES then download rest (i + 1)
      else some (.error (), .absent)
    | .fatalErr => some (.error (), .absent)

/-- On-disk state of the extraction target directory of
`APIClient.download_zipfile`. -/
inductive DirState
  | absent
  | emptyDir
  | halfWritten
  | extracted
deriving DecidableEq

/-- Outcome of one iteration of the retry loop in
`APIClient.download_zipfile`: the inner `self.download` call raises, the
downloaded file is not a valid zip (`BadZipFile`), some other exception
interrupts `extractall` partway, or extraction completes. -/
inductive ZipAttempt
  | dlFail
  | badZip
  | extractFatal
  | extractOk
deriving DecidableEq

/-- Result of `APIClient.download_zipfile`: the propagated result, the state
of the extraction target directory, and whether the temporary zip file
still exists. -/
structure ZipOutcome where
  result : Except Unit Unit
  dir : DirState
  tmpExists : Bool

/-- `APIClient.download_zipfile` (base.py 191-215), acting on the state of
the extraction target directory `dir`.  Per iteration: if the inner
`self.download` raises, it has already unlinked its own target (the
temporary zip), and the error propagates with `dir` untouched (nothing was
extracted this iteration); on `BadZipFile` the code runs
`rmtree(target_dir)` and either retries or re-raises; on any other
exception during `extractall` it runs `rmtree(target_dir)` and re-raises;
the `finally` clause unlinks the temporary zip whenever the `try` block was
entered. -/
def download_zipfile (attempts : List ZipAttempt) (i : Nat) (dir : DirState) :
    Option ZipOutcome :=
  match attempts with
  | [] => none
  | a :: rest =>
    match a with
    | .dlFail => some ⟨.error (), dir, false⟩
    | .badZip =>
      if i < ZIPFILE_RETRIES then download_zipfile rest (i + 1) .absent
      else some ⟨.error (), .absent, false⟩
    | .extractFatal => some ⟨.error (), .absent, false⟩
    | .extractOk => some ⟨.ok (), .extracted, false⟩

theorem download_error_cleanup (attempts : List DlAttempt) (i : Nat)
    (res : Except Unit Unit) (st : FileState)
    (h : download attempts i = some (res, st)) (herr : res = .error ()) :
    st = .absent := by
  induction attempts generalizing i with
  | nil => exact absurd h (by rw [download]; exact fun hc => Option.noConfusion hc)
  | cons a rest ih =>
    match a with
    | .ok =>
      rw [download] at h
      injection h with h
      injection h with h1 h2
      exact absurd (h1.trans herr) (fun hc => Except.noConfusion hc)
    | .connErr =>
      rw [download] at h
      by_cases hi : i < MAX_RETRIES
      · rw [if_pos hi] at h
        exact ih (i + 1) h
      · rw [if_neg hi] at h
        injection h with h
        injection h with h1 h2
        exact h2.symm
    | .fatalErr =>
      rw [download] at h
      injection h with h
      injection h with h1 h2
      exact h2.symm

theorem download_zipfile_error_cleanup (attempts : List ZipAttempt) (i : Nat)
    (dir : DirState) (out : ZipOutcome)
    (hdir : dir = .emptyDir ∨ dir = .absent)
    (h : download_zipfile attempts i dir = some out)
    (herr : out.result = .error ()) :
    (out.dir = .emptyDir ∨ out.dir = .absent) ∧ out.tmpExists = false := by
  induction attempts generalizing i dir with
  | nil =>
    exact absurd h (by rw [download_zipfile]; exact fun hc => Option.noConfusion hc)
  | cons a rest ih =>
    match a with
    | .dlFail =>
      rw [download_zipfile] at h
      injection h with h
      exact h ▸ ⟨hdir, rfl⟩
    | .badZip =>
      rw [download_zipfile] at h
      by_cases hi : i < ZIPFILE_RETRIES
      · rw [if_pos hi] at h
        exact ih (i + 1) .absent (Or.inr rfl) h
      · rw [if_neg hi] at h
        injection h with h
        exact h ▸ ⟨Or.inr rfl, rfl⟩
    | .extractFatal =>
      rw [download_zipfile] at h
      injection h with h
      exact h ▸ ⟨Or.inr rfl, rfl⟩
    | .extractOk =>
      rw [download_zipfile] at h
      injection h with h
      rw [← h] at herr
      exact absurd herr (fun hc => Except.noConfusion hc)

/-- C8: a failed download never leaves a non-empty target behind.  If
`APIClient.download` terminates with an exception, the target file has been
unlinked; if `APIClient.download_zipfile` (entered with an empty or absent
target directory, as its callers guarantee) terminates with an exception,
the target directory holds no extracted content and the temporary zip file
has been deleted. -/
theorem failed_download_cleanup (attempts : List DlAttempt) (i : Nat)
    (res : Except Unit Unit) (st : FileState)
    (zattempts : List ZipAttempt) (j : Nat) (dir : DirState) (out : ZipOutcome)
    (h1 : download attempts i = some (res, st)) (h2 : res = .error ())
    (hdir : dir = .emptyDir ∨ dir = .absent)
    (h3 : download_zipfile zattempts j dir = some out)
    (h4 : out.result = .error ()) :
    st = .absent ∧ (out.dir = .emptyDir ∨ out.dir = .absent) ∧
      out.tmpExists = false :=
  ⟨download_error_cleanup attempts i res st h1 h2,
   (download_zipfile_error_cleanup zattempts j dir out hdir h3 h4).1,
   (download_zipfile_error_cleanup zattempts j dir out hdir h3 h4).2⟩

theorem failed_download_cleanup_witness :
    FileState.absent = FileState.absent ∧
    (DirState.absent = DirState.emptyDir ∨ DirState.absent = DirState.absent) ∧
    (ZipOutcome.mk (.error ()) .absent false).tmpExists = false :=
  failed_download_cleanup [.connErr, .fatalErr] 0 (.error ()) .absent
    [.badZip, .dlFail] 0 .emptyDir ⟨.error (), .absent, false⟩
    rfl rfl (Or.inl rfl) rfl rfl

/-!
Idempotent asset download (`GHABuildLog.download`, github.py 381-411, and
`TravisJobLog.download`, travis.py 189-206).  The network is modelled as a
deterministic source: whether the server answers 404/410 for the logs, and
otherwise the list of file names the log archive extracts to.
-/

/-- What the server holds for one GitHub Actions run's logs. -/
structure GHALogSource where
  notFound : Bool
  zipEntries : List String

/-- `GHABuildLog.download` (github.py 381-411).  `dirContents` is the target
directory (`none` = directory does not yet exist); the result triple is
(returned file list, directory contents afterwards, whether any network
request was made).  The code runs `path.mkdir(parents=True, exist_ok=True)`,
returns `[]` at once when `any(path.iterdir())`, treats 404/410 as an
acceptable empty result, and otherwise extracts the archive and returns
`path.rglob("*.txt")`. -/
def gha_log_download (src : GHALogSource) (dirContents : Option (List String)) :
    List String × List String × Bool :=
  let contents := dirContents.getD []
  if contents.isEmpty = false then ([], contents, false)
  else if src.notFound then ([], contents, true)
  else (src.zipEntries.filter (fun f => f.endsWith ".txt"), src.zipEntries, true)

/-- `TravisJobLog.download` (travis.py 189-206).  The state is whether the
target file exists; the result triple is (returned file list, file exists
afterwards, whether any network request was made).  The code returns `[]`
at once when `path.exists()`, else downloads the log to `path` and returns
`[path]`. -/
def travis_log_download (fileExists : Bool) : List String × Bool × Bool :=
  if fileExists then ([], true, false)
  else (["log.txt"], true, true)

/-- C9: download is idempotent with respect to an existing target.  When the
GitHub Actions log directory is non-empty the call returns `[]` without any
network request; when the Travis log file exists the call returns `[]`
without any network request; and a second call made right after a first
call (over the same deterministic source) returns `[]`. -/
theorem download_idempotent (src : GHALogSource) (dir : List String)
    (hne : dir ≠ []) (d₀ : Option (List String)) (b : Bool) :
    gha_log_download src (some dir) = ([], dir, false) ∧
    travis_log_download true = ([], true, false) ∧
    (gha_log_download src (some (gha_log_download src d₀).2.1)).1 = [] ∧
    travis_log_download (travis_log_download b).2.1 = ([], true, false) := by
  refine ⟨?_, rfl, ?_, ?_⟩
  · rw [gha_log_download]
    have : dir.isEmpty = false := by
      match dir with
      | [] => exact absurd rfl hne
      | x :: xs => rfl
    simp [this]
  · rcases hd : (gha_log_download src d₀).2.1 with - | ⟨x, xs⟩
    · rw [gha_log_download]
      simp only [Option.getD_some, List.isEmpty_nil]
      by_cases hnf : src.notFound
      · simp [hnf]
      · simp only [hnf, if_false, if_true]
        have hz : src.zipEntries = [] := by
          rw [gha_log_download] at hd
          by_cases h0 : (d₀.getD []).isEmpty = false
          · rw [if_pos h0] at hd
            simp at hd
            rw [hd] at h0
            simp at h0
          · rw [if_neg h0] at hd
            simp only [Bool.not_eq_false] at h0
            by_cases hnf2 : src.notFound
            · exact absurd hnf2 hnf
            · simp [hnf2] at hd
              exact hd
        simp [hz]
    · rw [gha_log_download]
      simp
  · match b with
    | true => rfl
    | false => rfl

theorem download_idempotent_witness :
    gha_log_download ⟨false, ["1_build.txt"]⟩ (some ["old.txt"]) =
      ([], ["old.txt"], false) ∧
    travis_log_download true = ([], true, false) ∧
    (gha_log_download ⟨false, ["1_build.txt"]⟩
      (some (gha_log_download ⟨false, ["1_build.txt"]⟩ none).2.1)).1 = [] ∧
    travis_log_download (travis_log_download false).2.1 = ([], true, false) :=
  download_idempotent ⟨false, ["1_build.txt"]⟩ ["old.txt"]
    (by decide) none false
